import Mathlib

/-!
Verification of the animal-relocation program `australia.py`.

The program places "fictional animals" into Australian states so that no
animal ends up adjacent to its declared threat and no two animals share a
state.  We embed the data model (`FictionalAnimal`), the fixed adjacency
table (`ADJACENT_STATES`, `VALID_STATES`), the CSV-line loader
(`load_dataset`, with the file contents abstracted as an optional list of
lines), and the relocation algorithm (`relocate_animals`, implemented as an
outer loop over states `relocateAux` and an inner loop over animals
`placeInState` threading the `(animals, occupied_states, placed_animals)`
state that the Python code mutates in place).
-/

/-- Embedding of the module-level dictionary `ADJACENT_STATES` as an
association list, in source order. -/
def ADJACENT_STATES : List (String × List String) :=
  [("NSW", ["QLD", "VIC", "SA"]),
   ("QLD", ["NSW", "NT", "SA"]),
   ("VIC", ["NSW", "SA"]),
   ("TAS", []),
   ("SA", ["WA", "NT", "QLD", "NSW", "VIC"]),
   ("NT", ["WA", "QLD", "SA"]),
   ("WA", ["NT", "SA"])]

/-- Embedding of the module-level list `VALID_STATES`, in source order. -/
def VALID_STATES : List String := ["NSW", "QLD", "VIC", "TAS", "SA", "NT", "WA"]

/-- Dictionary access `ADJACENT_STATES[state]`.  The Python program only
indexes the dictionary with members of `VALID_STATES`, all of which are
keys; for other strings we return `[]` (Python would raise `KeyError`,
which is unreachable in the program). -/
def adjacentOf (s : String) : List String :=
  (ADJACENT_STATES.lookup s).getD []

/-- Embedding of the class `FictionalAnimal`: name, habitat, threat and
current state. -/
structure FictionalAnimal where
  name : String
  habitat : String
  threat : String
  state : String
deriving DecidableEq

/-- Embedding of `FictionalAnimal.__init__`: the three string fields are
trimmed and the state starts at the sentinel `"ACT"` (unplaced). -/
def FictionalAnimal.make (name habitat threat : String) : FictionalAnimal :=
  { name := name.trim, habitat := habitat.trim, threat := threat.trim, state := "ACT" }

/-- Embedding of `FictionalAnimal.get_state`. -/
def FictionalAnimal.get_state (a : FictionalAnimal) : String := a.state

/-- Embedding of `FictionalAnimal.set_state`: the state is updated only
when the argument is a member of `VALID_STATES`; otherwise the animal is
unchanged. -/
def FictionalAnimal.set_state (a : FictionalAnimal) (s : String) : FictionalAnimal :=
  if s ∈ VALID_STATES then { a with state := s } else a

/-- Embedding of the body of the loop in `FictionalAnimal.load_dataset`:
one CSV line is stripped and split on commas; a line with exactly three
fields yields an animal, any other field count yields nothing. -/
def parseLine (line : String) : Option FictionalAnimal :=
  match line.trim.splitOn "," with
  | [name, habitat, threat] => some (FictionalAnimal.make name habitat threat)
  | _ => none

/-- Embedding of `FictionalAnimal.load_dataset`.  The file system is
abstracted: `none` models a missing `animals.csv` (the function returns the
empty list immediately), `some lines` models the file's lines. -/
def load_dataset (source : Option (List String)) : List FictionalAnimal :=
  match source with
  | none => []
  | some lines => lines.filterMap parseLine

/-- Embedding of one iteration of the first conflict loop of
`relocate_animals`: the occupant of `adj`, if any, is the candidate's
threat (`if adj in occupied_states: if occupied_states[adj].name ==
animal.threat`). -/
def fwdEntry (occ : List (String × FictionalAnimal)) (animal : FictionalAnimal)
    (adj : String) : Bool :=
  match occ.lookup adj with
  | some other => other.name == animal.threat
  | none => false

/-- Embedding of one iteration of the second conflict loop of
`relocate_animals`: the occupant of `adj`, if any, has the candidate as
its threat. -/
def revEntry (occ : List (String × FictionalAnimal)) (animal : FictionalAnimal)
    (adj : String) : Bool :=
  match occ.lookup adj with
  | some other => other.threat == animal.name
  | none => false

/-- Embedding of the first conflict loop of `relocate_animals`: the
candidate's threat is already in an adjacent, occupied state. -/
def fwdConflict (st : String) (occ : List (String × FictionalAnimal))
    (animal : FictionalAnimal) : Bool :=
  (adjacentOf st).any (fwdEntry occ animal)

/-- Embedding of the second conflict loop of `relocate_animals`: an
adjacent occupant's threat is the candidate itself. -/
def revConflict (st : String) (occ : List (String × FictionalAnimal))
    (animal : FictionalAnimal) : Bool :=
  (adjacentOf st).any (revEntry occ animal)

/-- Embedding of the inner `for animal in animals` loop of
`relocate_animals` for one state `st`.  It returns the updated animal
list together with the updated `occupied_states` association list (in
insertion order) and `placed_animals` (as a list of names).  The branches
mirror the Python control flow: `continue` on an already-placed name,
`break` on an occupied state, `continue` on either conflict, and
place-then-`break` otherwise. -/
def placeInState (st : String) :
    List FictionalAnimal → List (String × FictionalAnimal) → List String →
      List FictionalAnimal × List (String × FictionalAnimal) × List String
  | [], occ, pl => ([], occ, pl)
  | a :: rest, occ, pl =>
    if a.name ∈ pl then
      let r := placeInState st rest occ pl
      (a :: r.1, r.2)
    else if (occ.lookup st).isSome then
      (a :: rest, occ, pl)
    else if fwdConflict st occ a then
      let r := placeInState st rest occ pl
      (a :: r.1, r.2)
    else if revConflict st occ a then
      let r := placeInState st rest occ pl
      (a :: r.1, r.2)
    else
      let a' := a.set_state st
      (a' :: rest, occ ++ [(st, a')], pl ++ [a.name])

/-- Embedding of the outer `for state in VALID_STATES` loop of
`relocate_animals`. -/
def relocateAux :
    List String → List FictionalAnimal → List (String × FictionalAnimal) → List String →
      List FictionalAnimal × List (String × FictionalAnimal) × List String
  | [], as, occ, pl => (as, occ, pl)
  | st :: states, as, occ, pl =>
    let r := placeInState st as occ pl
    relocateAux states r.1 r.2.1 r.2.2

/-- Embedding of `relocate_animals`.  The Python function mutates the
animals and its local `occupied_states` / `placed_animals`; here those
three pieces of state are returned. -/
def relocate_animals (animals : List FictionalAnimal) :
    List FictionalAnimal × List (String × FictionalAnimal) × List String :=
  relocateAux VALID_STATES animals [] []

/-- A concrete animal used in scenario and witness statements. -/
def koala : FictionalAnimal :=
  { name := "Koala", habitat := "Forest", threat := "Dingo", state := "ACT" }

def dingo : FictionalAnimal :=
  { name := "Dingo", habitat := "Desert", threat := "", state := "ACT" }

def wombat : FictionalAnimal :=
  { name := "Wombat", habitat := "Burrow", threat := "", state := "ACT" }

def emu : FictionalAnimal :=
  { name := "Emu", habitat := "Plains", threat := "", state := "ACT" }

def koalaWoods : FictionalAnimal :=
  { name := "Koala", habitat := "Woods", threat := "Dingo", state := "ACT" }

def koalaRival : FictionalAnimal :=
  { name := "Koala", habitat := "Scrub", threat := "Emu", state := "ACT" }

/-- Resetting an animal's state back to the sentinel, as in the spec's
idempotence property ("state reset to UNASSIGNED"). -/
def resetState (a : FictionalAnimal) : FictionalAnimal := { a with state := "ACT" }

/-- The decision-time conflict-freedom invariant on the occupancy list,
read in placement order: every later occupant passed both conflict checks
against every earlier occupant sitting in a state adjacent (from the later
occupant's point of view). -/
def decisionFree (occ : List (String × FictionalAnimal)) : Prop :=
  ∀ i j si ai sj aj, i < j → occ.get? i = some (si, ai) → occ.get? j = some (sj, aj) →
    si ∈ adjacentOf sj → ai.name ≠ aj.threat ∧ ai.threat ≠ aj.name

/-- Invariant of the `(occupied_states, placed_animals)` pair that holds
for every run, regardless of the incoming animal states. -/
structure Inv0 (occ : List (String × FictionalAnimal)) (pl : List String) : Prop where
  keys_nodup : (occ.map Prod.fst).Nodup
  keys_valid : ∀ p ∈ occ, p.1 ∈ VALID_STATES
  entry_state : ∀ p ∈ occ, p.2.state = p.1
  pl_eq : pl = occ.map fun p => p.2.name
  names_nodup : (occ.map fun p => p.2.name).Nodup
  decision_free : decisionFree occ

/-- Invariant connecting the (possibly partially relocated) animal list to
the occupancy data, for runs started on fresh animals: every animal whose
state has left the sentinel is recorded in `placed_animals`, and the
relocated animals are, up to order, exactly the occupants. -/
structure InvF (as : List FictionalAnimal) (occ : List (String × FictionalAnimal))
    (pl : List String) : Prop where
  changed_names : ∀ a ∈ as, a.state ≠ "ACT" → a.name ∈ pl
  changed_perm : (as.filter fun a => !(a.state == "ACT")).Perm (occ.map Prod.snd)

/-- Two animals that agree on every field the algorithm reads: name,
threat and state (the habitat is free). -/
def SameCore (a b : FictionalAnimal) : Prop :=
  a.name = b.name ∧ a.threat = b.threat ∧ a.state = b.state

/-- Occupancy lists that agree on slots and on the algorithm-relevant
fields of their occupants. -/
def OccRel (o1 o2 : List (String × FictionalAnimal)) : Prop :=
  List.Forall₂ (fun p q => p.1 = q.1 ∧ SameCore p.2 q.2) o1 o2

/-! ### Basic lemmas about `set_state` -/

theorem set_state_name (a : FictionalAnimal) (s : String) :
    (a.set_state s).name = a.name := by
  unfold FictionalAnimal.set_state; split <;> rfl

theorem set_state_threat (a : FictionalAnimal) (s : String) :
    (a.set_state s).threat = a.threat := by
  unfold FictionalAnimal.set_state; split <;> rfl

theorem set_state_of_mem {s : String} (h : s ∈ VALID_STATES) (a : FictionalAnimal) :
    a.set_state s = { a with state := s } := by
  unfold FictionalAnimal.set_state; rw [if_pos h]

theorem set_state_of_not_mem {s : String} (h : s ∉ VALID_STATES) (a : FictionalAnimal) :
    a.set_state s = a := by
  unfold FictionalAnimal.set_state; rw [if_neg h]

/-! ### The single-step characterisation of the inner loop -/

/-- One call of the inner loop either leaves everything unchanged, or
places exactly one animal `a` (at list position `i`): `a` was not yet
placed, the state was unoccupied, both conflict checks were clean, and the
three state components are updated accordingly. -/
theorem placeInState_spec (st : String) (occ : List (String × FictionalAnimal))
    (pl : List String) (as : List FictionalAnimal) :
    placeInState st as occ pl = (as, occ, pl) ∨
    ∃ i a, as.get? i = some a ∧ a.name ∉ pl ∧ occ.lookup st = none ∧
      fwdConflict st occ a = false ∧ revConflict st occ a = false ∧
      placeInState st as occ pl =
        (as.set i (a.set_state st), occ ++ [(st, a.set_state st)], pl ++ [a.name]) := by
  induction as with
  | nil => exact Or.inl rfl
  | cons a rest ih =>
    by_cases h1 : a.name ∈ pl
    · rcases ih with h | ⟨i, b, hget, hbpl, hbocc, hbf, hbr, heq⟩
      · left
        simp only [placeInState, if_pos h1, h]
      · right
        refine ⟨i + 1, b, by simpa using hget, hbpl, hbocc, hbf, hbr, ?_⟩
        simp only [placeInState, if_pos h1, heq, List.set_cons_succ]
    · by_cases h2 : (occ.lookup st).isSome
      · left
        simp only [placeInState, if_neg h1, if_pos h2]
      · by_cases h3 : fwdConflict st occ a
        · rcases ih with h | ⟨i, b, hget, hbpl, hbocc, hbf, hbr, heq⟩
          · left
            simp only [placeInState, if_neg h1, if_neg h2, if_pos h3, h]
          · right
            refine ⟨i + 1, b, by simpa using hget, hbpl, hbocc, hbf, hbr, ?_⟩
            simp only [placeInState, if_neg h1, if_neg h2, if_pos h3, heq, List.set_cons_succ]
        · by_cases h4 : revConflict st occ a
          · rcases ih with h | ⟨i, b, hget, hbpl, hbocc, hbf, hbr, heq⟩
            · left
              simp only [placeInState, if_neg h1, if_neg h2, if_neg h3, if_pos h4, h]
            · right
              refine ⟨i + 1, b, by simpa using hget, hbpl, hbocc, hbf, hbr, ?_⟩
              simp only [placeInState, if_neg h1, if_neg h2, if_neg h3, if_pos h4, heq,
                List.set_cons_succ]
          · right
            refine ⟨0, a, rfl, h1, Option.not_isSome_iff_eq_none.mp h2,
              Bool.not_eq_true _ ▸ h3, Bool.not_eq_true _ ▸ h4, ?_⟩
            simp only [placeInState, if_neg h1, if_neg h2, if_neg h3, if_neg h4,
              List.set_cons_zero]

/-! ### Association-list lemmas for `occupied_states` -/

theorem lookup_none_not_mem {occ : List (String × FictionalAnimal)} {st : String}
    (h : occ.lookup st = none) : st ∉ occ.map Prod.fst := by
  induction occ with
  | nil => simp
  | cons p rest ih =>
    obtain ⟨k, v⟩ := p
    simp only [List.lookup] at h
    cases hk : (st == k) with
    | true => rw [hk] at h; simp at h
    | false =>
      rw [hk] at h
      simp only [List.map_cons, List.mem_cons]
      rintro (rfl | hmem)
      · simp at hk
      · exact ih h hmem

theorem lookup_of_get? {occ : List (String × FictionalAnimal)}
    (hnd : (occ.map Prod.fst).Nodup) {i : Nat} {si : String} {ai : FictionalAnimal}
    (h : occ.get? i = some (si, ai)) : occ.lookup si = some ai := by
  induction occ generalizing i with
  | nil => simp at h
  | cons p rest ih =>
    obtain ⟨k, v⟩ := p
    cases i with
    | zero =>
      simp only [List.get?_cons_zero, Option.some_inj, Prod.mk.injEq] at h
      obtain ⟨rfl, rfl⟩ := h
      simp [List.lookup]
    | succ i =>
      simp only [List.get?_cons_succ] at h
      have hmem : si ∈ rest.map Prod.fst :=
        List.mem_map_of_mem Prod.fst (List.get?_mem h)
      have hnd' := List.nodup_cons.mp (show (k :: rest.map Prod.fst).Nodup from hnd)
      have hk : (si == k) = false := by
        apply beq_false_of_ne
        intro hcontra
        exact hnd'.1 (hcontra ▸ hmem)
      simp only [List.lookup, hk]
      exact ih hnd'.2 h

theorem fwdConflict_false {st : String} {occ : List (String × FictionalAnimal)}
    {a : FictionalAnimal} (h : fwdConflict st occ a = false) :
    ∀ adj ∈ adjacentOf st, ∀ b, occ.lookup adj = some b → b.name ≠ a.threat := by
  intro adj hadj b hb heq
  have htrue : fwdConflict st occ a = true := by
    unfold fwdConflict
    rw [List.any_eq_true]
    refine ⟨adj, hadj, ?_⟩
    unfold fwdEntry
    rw [hb]
    simpa using heq
  rw [h] at htrue
  exact Bool.false_ne_true htrue

theorem revConflict_false {st : String} {occ : List (String × FictionalAnimal)}
    {a : FictionalAnimal} (h : revConflict st occ a = false) :
    ∀ adj ∈ adjacentOf st, ∀ b, occ.lookup adj = some b → b.threat ≠ a.name := by
  intro adj hadj b hb heq
  have htrue : revConflict st occ a = true := by
    unfold revConflict
    rw [List.any_eq_true]
    refine ⟨adj, hadj, ?_⟩
    unfold revEntry
    rw [hb]
    simpa using heq
  rw [h] at htrue
  exact Bool.false_ne_true htrue

/-- Appending a freshly checked occupant preserves decision-time
conflict-freedom. -/
theorem decisionFree_append {occ : List (String × FictionalAnimal)}
    (hnd : (occ.map Prod.fst).Nodup) (hdf : decisionFree occ)
    {st : String} {a a' : FictionalAnimal}
    (hf : fwdConflict st occ a = false) (hr : revConflict st occ a = false)
    (hname : a'.name = a.name) (hthreat : a'.threat = a.threat) :
    decisionFree (occ ++ [(st, a')]) := by
  intro i j si ai sj aj hij hi hj hadj
  have hjlen : j < occ.length + 1 := by
    have := (List.get?_eq_some.mp hj).1
    simpa using this
  rcases Nat.lt_or_ge j occ.length with hjl | hjr
  · rw [List.get?_append (Nat.lt_trans hij hjl)] at hi
    rw [List.get?_append hjl] at hj
    exact hdf i j si ai sj aj hij hi hj hadj
  · have hjeq : j = occ.length := Nat.le_antisymm (Nat.lt_succ_iff.mp hjlen) hjr
    subst hjeq
    rw [List.get?_concat_length] at hj
    have hpair : (st, a') = (sj, aj) := Option.some_inj.mp hj
    obtain ⟨rfl, rfl⟩ : st = sj ∧ a' = aj := Prod.mk.injEq .. ▸ hpair
    rw [List.get?_append hij] at hi
    have hlk : occ.lookup si = some ai := lookup_of_get? hnd hi
    constructor
    · rw [hthreat]
      exact fwdConflict_false hf si hadj ai hlk
    · rw [hname]
      exact revConflict_false hr si hadj ai hlk

/-! ### The run invariant that needs no assumption on the animals -/

theorem inv0_nil : Inv0 [] [] where
  keys_nodup := List.nodup_nil
  keys_valid := by intro p hp; simp at hp
  entry_state := by intro p hp; simp at hp
  pl_eq := rfl
  names_nodup := List.nodup_nil
  decision_free := by intro i j si ai sj aj _ hi _ _; simp at hi

theorem placeInState_inv0 {st : String} {occ : List (String × FictionalAnimal)}
    {pl : List String} (hst : st ∈ VALID_STATES) (h : Inv0 occ pl)
    (as : List FictionalAnimal) :
    Inv0 (placeInState st as occ pl).2.1 (placeInState st as occ pl).2.2 := by
  rcases placeInState_spec st occ pl as with heq | ⟨i, a, hget, hpl, hocc, hf, hr, heq⟩
  · rw [heq]; exact h
  · rw [heq]
    have hstkey : st ∉ occ.map Prod.fst := lookup_none_not_mem hocc
    have hnames : a.name ∉ occ.map fun p => p.2.name := h.pl_eq ▸ hpl
    refine ⟨?_, ?_, ?_, ?_, ?_, ?_⟩
    · rw [List.map_append, List.nodup_append]
      exact ⟨h.keys_nodup, List.nodup_singleton st, by simpa using hstkey⟩
    · intro p hp
      rcases List.mem_append.mp hp with hmem | hmem
      · exact h.keys_valid p hmem
      · rw [List.mem_singleton.mp hmem]
        exact hst
    · intro p hp
      rcases List.mem_append.mp hp with hmem | hmem
      · exact h.entry_state p hmem
      · rw [List.mem_singleton.mp hmem]
        rw [set_state_of_mem hst a]
    · rw [List.map_append, h.pl_eq]
      simp [set_state_name]
    · rw [List.map_append, List.nodup_append]
      refine ⟨h.names_nodup, List.nodup_singleton _, ?_⟩
      simpa [set_state_name] using hnames
    · exact decisionFree_append h.keys_nodup h.decision_free hf hr
        (set_state_name a st) (set_state_threat a st)

theorem relocateAux_inv0 {states : List String} (hs : ∀ st ∈ states, st ∈ VALID_STATES) :
    ∀ {as : List FictionalAnimal} {occ : List (String × FictionalAnimal)} {pl : List String},
      Inv0 occ pl →
      Inv0 (relocateAux states as occ pl).2.1 (relocateAux states as occ pl).2.2 := by
  induction states with
  | nil => intro as occ pl h; exact h
  | cons st states ih =>
    intro as occ pl h
    simp only [relocateAux]
    exact ih (fun s hmem => hs s (List.mem_cons_of_mem _ hmem))
      (placeInState_inv0 (hs st (List.mem_cons_self _ _)) h as)

/-- The occupancy invariant holds at the end of every run. -/
theorem relocate_inv0 (as : List FictionalAnimal) :
    Inv0 (relocate_animals as).2.1 (relocate_animals as).2.2 :=
  relocateAux_inv0 (fun _ h => h) inv0_nil

/-! ### The run invariant for fresh animal lists -/

theorem ACT_not_valid : "ACT" ∉ VALID_STATES := by decide

theorem filter_set_perm {p : FictionalAnimal → Bool} {l : List FictionalAnimal}
    {i : Nat} {y x : FictionalAnimal} (hget : l.get? i = some y)
    (hy : p y = false) (hx : p x = true) :
    ((l.set i x).filter p).Perm (x :: l.filter p) := by
  induction l generalizing i with
  | nil => simp at hget
  | cons a rest ih =>
    cases i with
    | zero =>
      simp only [List.get?_cons_zero, Option.some_inj] at hget
      subst hget
      rw [List.set_cons_zero]
      simp only [List.filter_cons, hx, hy]
      exact List.Perm.refl _
    | succ i =>
      simp only [List.get?_cons_succ] at hget
      rw [List.set_cons_succ]
      cases pa : p a with
      | true =>
        simp only [List.filter_cons, pa, if_true]
        exact ((ih hget).cons a).trans (List.Perm.swap x a _)
      | false =>
        simp only [List.filter_cons, pa, if_false]
        exact ih hget

theorem placeInState_invF {st : String} {occ : List (String × FictionalAnimal)}
    {pl : List String} (hst : st ∈ VALID_STATES) {as : List FictionalAnimal}
    (h : InvF as occ pl) :
    InvF (placeInState st as occ pl).1 (placeInState st as occ pl).2.1
      (placeInState st as occ pl).2.2 := by
  rcases placeInState_spec st occ pl as with heq | ⟨i, a, hget, hpl, hocc, hf, hr, heq⟩
  · rw [heq]; exact h
  · rw [heq]
    have hmem : a ∈ as := List.get?_mem hget
    have ha : a.state = "ACT" := by
      by_contra hc
      exact hpl (h.changed_names a hmem hc)
    have hstACT : st ≠ "ACT" := fun hcon => ACT_not_valid (hcon ▸ hst)
    have hsets : (a.set_state st).state = st := by rw [set_state_of_mem hst a]
    refine ⟨?_, ?_⟩
    · intro b hb _
      rcases List.mem_or_eq_of_mem_set hb with hbas | hbeq
      · rename_i hbst
        exact List.mem_append_left _ (h.changed_names b hbas hbst)
      · rw [hbeq, set_state_name]
        exact List.mem_append_right _ (List.mem_singleton_self _)
    · have hy : (!(a.state == "ACT")) = false := by simp [ha]
      have hx : (!((a.set_state st).state == "ACT")) = true := by simp [hsets, hstACT]
      have hperm := filter_set_perm (p := fun a => !(a.state == "ACT")) hget hy hx
      rw [List.map_append]
      refine hperm.trans ?_
      refine (h.changed_perm.cons (a.set_state st)).trans ?_
      exact (List.perm_append_singleton _ _).symm

theorem relocateAux_invF {states : List String} (hs : ∀ st ∈ states, st ∈ VALID_STATES) :
    ∀ {as : List FictionalAnimal} {occ : List (String × FictionalAnimal)} {pl : List String},
      InvF as occ pl →
      InvF (relocateAux states as occ pl).1 (relocateAux states as occ pl).2.1
        (relocateAux states as occ pl).2.2 := by
  induction states with
  | nil => intro as occ pl h; exact h
  | cons st states ih =>
    intro as occ pl h
    simp only [relocateAux]
    exact ih (fun s hmem => hs s (List.mem_cons_of_mem _ hmem))
      (placeInState_invF (hs st (List.mem_cons_self _ _)) h)

/-- The fresh-run invariant holds at the end of a run on fresh animals. -/
theorem relocate_invF (as : List FictionalAnimal) (h : ∀ a ∈ as, a.state = "ACT") :
    InvF (relocate_animals as).1 (relocate_animals as).2.1 (relocate_animals as).2.2 := by
  refine relocateAux_invF (fun _ hmem => hmem) ⟨?_, ?_⟩
  · intro a hmem hne
    exact absurd (h a hmem) hne
  · have hnil : (as.filter fun a => !(a.state == "ACT")) = [] := by
      rw [List.filter_eq_nil]
      intro a hmem
      simp [h a hmem]
    rw [hnil]
    exact List.Perm.refl _

/-- The stored adjacency relation is symmetric on the valid states. -/
theorem adjacent_symm_valid : ∀ t ∈ VALID_STATES, ∀ s ∈ adjacentOf t, t ∈ adjacentOf s := by
  decide

/-! ### The claims -/

/-- Claim C1: at each placement decision, the forward check (no adjacent
occupant's name equals the candidate's threat) and the reverse check (no
adjacent occupant's threat equals the candidate's name) both pass, so for
every pair of occupied slots in the final occupancy list where the
earlier-placed slot is adjacent to the later-placed one, neither occupant
threatens the other. -/
theorem claim_C1_decision_time_checks (as : List FictionalAnimal)
    (i j : Nat) (si sj : String) (ai aj : FictionalAnimal) (hij : i < j)
    (hi : (relocate_animals as).2.1.get? i = some (si, ai))
    (hj : (relocate_animals as).2.1.get? j = some (sj, aj))
    (hadj : si ∈ adjacentOf sj) :
    ai.name ≠ aj.threat ∧ ai.threat ≠ aj.name :=
  (relocate_inv0 as).decision_free i j si ai sj aj hij hi hj hadj

theorem claim_C1_witness :
    (0 : Nat) < 1 ∧
    (relocate_animals [wombat, emu]).2.1.get? 0 =
      some ("NSW", { wombat with state := "NSW" }) ∧
    (relocate_animals [wombat, emu]).2.1.get? 1 =
      some ("QLD", { emu with state := "QLD" }) ∧
    "NSW" ∈ adjacentOf "QLD" ∧
    (({ wombat with state := "NSW" } : FictionalAnimal).name ≠
        ({ emu with state := "QLD" } : FictionalAnimal).threat ∧
      ({ wombat with state := "NSW" } : FictionalAnimal).threat ≠
        ({ emu with state := "QLD" } : FictionalAnimal).name) :=
  ⟨by decide, by decide, by decide, by decide,
    claim_C1_decision_time_checks [wombat, emu] 0 1 "NSW" "QLD"
      { wombat with state := "NSW" } { emu with state := "QLD" }
      (by decide) (by decide) (by decide) (by decide)⟩

/-- Claim C2: after a run on fresh animals, the occupied slots are
pairwise distinct (each occupied slot holds exactly one entity), the
occupants' names are pairwise distinct (no entity occupies more than one
slot), and no two relocated animals carry the same non-sentinel state. -/
theorem claim_C2_uniqueness (as : List FictionalAnimal)
    (h : ∀ a ∈ as, a.state = "ACT") :
    ((relocate_animals as).2.1.map Prod.fst).Nodup ∧
    ((relocate_animals as).2.1.map fun p => p.2.name).Nodup ∧
    (((relocate_animals as).1.filter fun a => !(a.state == "ACT")).map
      fun a => a.state).Nodup := by
  refine ⟨(relocate_inv0 as).keys_nodup, (relocate_inv0 as).names_nodup, ?_⟩
  have hmapped := ((relocate_invF as h).changed_perm).map fun a : FictionalAnimal => a.state
  have hstates : ((relocate_animals as).2.1.map Prod.snd).map (fun a => a.state) =
      (relocate_animals as).2.1.map Prod.fst := by
    rw [List.map_map]
    exact List.map_congr_left fun p hp => (relocate_inv0 as).entry_state p hp
  rw [hstates] at hmapped
  exact hmapped.nodup_iff.mpr (relocate_inv0 as).keys_nodup

theorem claim_C2_witness :
    ((relocate_animals [koala, dingo]).2.1.map Prod.fst).Nodup ∧
    ((relocate_animals [koala, dingo]).2.1.map fun p => p.2.name).Nodup ∧
    (((relocate_animals [koala, dingo]).1.filter fun a => !(a.state == "ACT")).map
      fun a => a.state).Nodup :=
  claim_C2_uniqueness [koala, dingo] (by decide)

/-- Claim C3: on the two-animal scenario Koala (threat Dingo) then Dingo
(no threat), the engine places Koala at NSW in the first slot pass,
rejects Dingo at QLD and at VIC through the reverse-threat check (the
forward check passes there), and the final result assigns Koala to NSW and
Dingo to TAS. -/
theorem claim_C3_scenario :
    placeInState "NSW" [koala, dingo] [] [] =
      ([{ koala with state := "NSW" }, dingo],
       [("NSW", { koala with state := "NSW" })], ["Koala"]) ∧
    fwdConflict "QLD" [("NSW", { koala with state := "NSW" })] dingo = false ∧
    revConflict "QLD" [("NSW", { koala with state := "NSW" })] dingo = true ∧
    fwdConflict "VIC" [("NSW", { koala with state := "NSW" })] dingo = false ∧
    revConflict "VIC" [("NSW", { koala with state := "NSW" })] dingo = true ∧
    relocate_animals [koala, dingo] =
      ([{ koala with state := "NSW" }, { dingo with state := "TAS" }],
       [("NSW", { koala with state := "NSW" }), ("TAS", { dingo with state := "TAS" })],
       ["Koala", "Dingo"]) := by
  decide

/-- Claim C4 counterexample: contrary to the claim, there is NO pair
`(s, t)` in the stored adjacency table with `t` listed among the adjacent
slots of `s` but `s` not listed among the adjacent slots of `t`. -/
theorem claim_C4_counterexample :
    ¬ ∃ p ∈ ADJACENT_STATES, ∃ t ∈ p.2, p.1 ∉ adjacentOf t := by decide

/-- Claim C4 (amended): the stored adjacency relation is symmetric — for
every entry `(s, neighbours)` of the table and every `t` among the
neighbours, `s` is listed among the adjacent slots of `t`. -/
theorem claim_C4_amended_symmetric :
    ∀ p ∈ ADJACENT_STATES, ∀ t ∈ p.2, p.1 ∈ adjacentOf t := by decide

theorem claim_C4_amended_witness :
    ("NSW", ["QLD", "VIC", "SA"]) ∈ ADJACENT_STATES ∧
    "QLD" ∈ ["QLD", "VIC", "SA"] ∧ "NSW" ∈ adjacentOf "QLD" :=
  ⟨by decide, by decide,
    claim_C4_amended_symmetric ("NSW", ["QLD", "VIC", "SA"]) (by decide) "QLD" (by decide)⟩

/-- Claim C5: `set_state` silently ignores a slot outside the valid
enumeration and updates the state for a slot inside it; consequently a run
on fresh animals leaves every animal either at the sentinel or at a valid
slot. -/
theorem claim_C5_invalid_slot_ignored (a : FictionalAnimal) (s : String)
    (as : List FictionalAnimal) :
    (s ∉ VALID_STATES → a.set_state s = a) ∧
    (s ∈ VALID_STATES → a.set_state s = { a with state := s }) ∧
    ((∀ b ∈ as, b.state = "ACT") →
      ∀ b ∈ (relocate_animals as).1, b.state = "ACT" ∨ b.state ∈ VALID_STATES) := by
  refine ⟨fun hv => set_state_of_not_mem hv a, fun hv => set_state_of_mem hv a, ?_⟩
  intro h b hb
  by_cases hact : b.state = "ACT"
  · exact Or.inl hact
  · right
    have hmem : b ∈ (relocate_animals as).1.filter fun x => !(x.state == "ACT") := by
      rw [List.mem_filter]
      exact ⟨hb, by simp [hact]⟩
    have hmem2 : b ∈ (relocate_animals as).2.1.map Prod.snd :=
      ((relocate_invF as h).changed_perm.mem_iff).mp hmem
    obtain ⟨p, hp, rfl⟩ := List.mem_map.mp hmem2
    rw [(relocate_inv0 as).entry_state p hp]
    exact (relocate_inv0 as).keys_valid p hp

theorem claim_C5_witness :
    koala.set_state "Mars" = koala ∧
    koala.set_state "NSW" = { koala with state := "NSW" } ∧
    (({ koala with state := "NSW" } : FictionalAnimal).state = "ACT" ∨
      ({ koala with state := "NSW" } : FictionalAnimal).state ∈ VALID_STATES) :=
  ⟨(claim_C5_invalid_slot_ignored koala "Mars" [koala]).1 (by decide),
   (claim_C5_invalid_slot_ignored koala "NSW" [koala]).2.1 (by decide),
   (claim_C5_invalid_slot_ignored koala "NSW" [koala]).2.2 (by decide)
     { koala with state := "NSW" } (by decide)⟩

theorem resetState_set_state (a : FictionalAnimal) (s : String) :
    resetState (a.set_state s) = resetState a := by
  unfold FictionalAnimal.set_state
  split <;> rfl

theorem set_of_get? {α : Type} {l : List α} {i : Nat} {x : α}
    (h : l.get? i = some x) : l.set i x = l := by
  induction l generalizing i with
  | nil => rfl
  | cons a rest ih =>
    cases i with
    | zero =>
      simp only [List.get?_cons_zero, Option.some_inj] at h
      rw [List.set_cons_zero, h]
    | succ i =>
      simp only [List.get?_cons_succ] at h
      rw [List.set_cons_succ, ih h]

theorem placeInState_reset (st : String) (occ : List (String × FictionalAnimal))
    (pl : List String) (as : List FictionalAnimal) :
    (placeInState st as occ pl).1.map resetState = as.map resetState := by
  rcases placeInState_spec st occ pl as with heq | ⟨i, a, hget, _, _, _, _, heq⟩
  · rw [heq]
  · rw [heq]
    show ((as.set i (a.set_state st)).map resetState) = _
    rw [List.map_set, resetState_set_state]
    apply set_of_get?
    rw [List.get?_map, hget]
    rfl

theorem relocateAux_reset (states : List String) :
    ∀ (as : List FictionalAnimal) (occ : List (String × FictionalAnimal)) (pl : List String),
      (relocateAux states as occ pl).1.map resetState = as.map resetState := by
  induction states with
  | nil => intro as occ pl; rfl
  | cons st states ih =>
    intro as occ pl
    simp only [relocateAux]
    rw [ih, placeInState_reset]

/-- Claim C6: the engine is a pure function of its input, and running it
again on the output animals with their states reset to the sentinel gives
the same result as the first run: in fact resetting the output gives back
the fresh input list itself. -/
theorem claim_C6_idempotent (as : List FictionalAnimal)
    (h : ∀ a ∈ as, a.state = "ACT") :
    (relocate_animals as).1.map resetState = as ∧
    relocate_animals ((relocate_animals as).1.map resetState) = relocate_animals as := by
  have hid : ∀ a ∈ as, resetState a = a := by
    intro a ha
    have hs := h a ha
    unfold resetState
    rw [← hs]
  have h1 : (relocate_animals as).1.map resetState = as := by
    rw [show (relocate_animals as).1.map resetState = as.map resetState from
      relocateAux_reset VALID_STATES as [] []]
    rw [List.map_congr_left hid, List.map_id']
  exact ⟨h1, by rw [h1]⟩

theorem claim_C6_witness :
    (relocate_animals [koala, dingo]).1.map resetState = [koala, dingo] ∧
    relocate_animals ((relocate_animals [koala, dingo]).1.map resetState) =
      relocate_animals [koala, dingo] :=
  claim_C6_idempotent [koala, dingo] (by decide)

theorem parseLine_isSome (line : String) :
    (parseLine line).isSome = ((line.trim.splitOn ",").length == 3) := by
  unfold parseLine
  generalize line.trim.splitOn "," = parts
  rcases parts with _ | ⟨a, _ | ⟨b, _ | ⟨c, _ | ⟨d, rest⟩⟩⟩⟩ <;> simp

/-- Claim C7: a missing input source yields the empty entity list, and on
a present source the loader returns exactly one entity per line that
splits into exactly three comma-delimited fields (all other lines are
dropped). -/
theorem claim_C7_loader (lines : List String) :
    load_dataset none = [] ∧
    (load_dataset (some lines)).length =
      lines.countP fun l => (l.trim.splitOn ",").length == 3 := by
  refine ⟨rfl, ?_⟩
  show (lines.filterMap parseLine).length = _
  induction lines with
  | nil => rfl
  | cons l rest ih =>
    rw [List.filterMap_cons, List.countP_cons]
    have hiso := parseLine_isSome l
    cases hp : parseLine l with
    | none =>
      rw [hp] at hiso
      simp only [Option.isSome_none] at hiso
      simp only [← hiso, Bool.false_eq_true, if_false, Nat.add_zero]
      exact ih
    | some b =>
      rw [hp] at hiso
      simp only [Option.isSome_some] at hiso
      simp only [← hiso, if_true, List.length_cons, ih]

theorem OccRel.lookup_rel {o1 o2 : List (String × FictionalAnimal)}
    (h : OccRel o1 o2) (k : String) :
    Option.Rel SameCore (o1.lookup k) (o2.lookup k) := by
  induction h with
  | nil => exact Option.Rel.none
  | cons hpq _ ih =>
    rename_i p q l1 l2 _
    obtain ⟨k1, v1⟩ := p
    obtain ⟨k2, v2⟩ := q
    obtain ⟨hk, hv⟩ := hpq
    dsimp at hk
    subst hk
    simp only [List.lookup]
    cases hbeq : (k == k1) with
    | true => exact Option.Rel.some hv
    | false => exact ih

theorem any_congr {α : Type} {p q : α → Bool} {l : List α}
    (h : ∀ x ∈ l, p x = q x) : l.any p = l.any q := by
  induction l with
  | nil => rfl
  | cons a rest ih =>
    simp only [List.any_cons]
    rw [h a (List.mem_cons_self a rest), ih fun x hx => h x (List.mem_cons_of_mem a hx)]

theorem optionRel_isSome {α β : Type} {r : α → β → Prop} {x : Option α} {y : Option β}
    (h : Option.Rel r x y) : x.isSome = y.isSome := by
  cases h <;> rfl

theorem fwdEntry_eq {o1 o2 : List (String × FictionalAnimal)} {adj : String}
    (h : Option.Rel SameCore (o1.lookup adj) (o2.lookup adj))
    {a b : FictionalAnimal} (hab : a.threat = b.threat) :
    fwdEntry o1 a adj = fwdEntry o2 b adj := by
  unfold fwdEntry
  rcases hx : o1.lookup adj with _ | u <;> rcases hy : o2.lookup adj with _ | v <;>
      rw [hx, hy] at h
  · cases h
  · cases h
  · have hrel : SameCore u v := by cases h with | some hr => exact hr
    show (u.name == a.threat) = (v.name == b.threat)
    rw [hrel.1, hab]

theorem revEntry_eq {o1 o2 : List (String × FictionalAnimal)} {adj : String}
    (h : Option.Rel SameCore (o1.lookup adj) (o2.lookup adj))
    {a b : FictionalAnimal} (hab : a.name = b.name) :
    revEntry o1 a adj = revEntry o2 b adj := by
  unfold revEntry
  rcases hx : o1.lookup adj with _ | u <;> rcases hy : o2.lookup adj with _ | v <;>
      rw [hx, hy] at h
  · cases h
  · cases h
  · have hrel : SameCore u v := by cases h with | some hr => exact hr
    show (u.threat == a.name) = (v.threat == b.name)
    rw [hrel.2.1, hab]

theorem conflicts_eq (st : String) {o1 o2 : List (String × FictionalAnimal)}
    (h : OccRel o1 o2) {a b : FictionalAnimal} (hab : SameCore a b) :
    fwdConflict st o1 a = fwdConflict st o2 b ∧
    revConflict st o1 a = revConflict st o2 b := by
  constructor
  · unfold fwdConflict
    apply any_congr
    intro adj _
    exact fwdEntry_eq (h.lookup_rel adj) hab.2.1
  · unfold revConflict
    apply any_congr
    intro adj _
    exact revEntry_eq (h.lookup_rel adj) hab.1

theorem SameCore.set_state {a b : FictionalAnimal} (h : SameCore a b) (s : String) :
    SameCore (a.set_state s) (b.set_state s) := by
  by_cases hs : s ∈ VALID_STATES
  · rw [set_state_of_mem hs a, set_state_of_mem hs b]
    exact ⟨h.1, h.2.1, rfl⟩
  · rw [set_state_of_not_mem hs a, set_state_of_not_mem hs b]
    exact h

theorem placeInState_rel (st : String) (pl : List String)
    {as bs : List FictionalAnimal} (ha : List.Forall₂ SameCore as bs)
    {o1 o2 : List (String × FictionalAnimal)} (ho : OccRel o1 o2) :
    List.Forall₂ SameCore (placeInState st as o1 pl).1 (placeInState st bs o2 pl).1 ∧
    OccRel (placeInState st as o1 pl).2.1 (placeInState st bs o2 pl).2.1 ∧
    (placeInState st as o1 pl).2.2 = (placeInState st bs o2 pl).2.2 := by
  induction ha with
  | nil => exact ⟨List.Forall₂.nil, ho, rfl⟩
  | cons hab htail ih =>
    rename_i a b as' bs'
    have hname : a.name = b.name := hab.1
    have hsome : (o1.lookup st).isSome = (o2.lookup st).isSome :=
      optionRel_isSome (ho.lookup_rel st)
    have hcf := conflicts_eq st ho hab
    by_cases h1 : a.name ∈ pl
    · have h1b : b.name ∈ pl := hname ▸ h1
      simp only [placeInState, if_pos h1, if_pos h1b]
      exact ⟨ih.1.cons hab, ih.2.1, ih.2.2⟩
    · have h1b : b.name ∉ pl := fun hc => h1 (hname ▸ hc)
      by_cases h2 : (o1.lookup st).isSome
      · have h2b : (o2.lookup st).isSome := hsome ▸ h2
        simp only [placeInState, if_neg h1, if_neg h1b, if_pos h2, if_pos h2b]
        exact ⟨List.Forall₂.cons hab htail, ho, trivial⟩
      · have h2b : ¬(o2.lookup st).isSome = true := fun hc => h2 (hsome ▸ hc)
        by_cases h3 : fwdConflict st o1 a
        · have h3b : fwdConflict st o2 b = true := hcf.1 ▸ h3
          simp only [placeInState, if_neg h1, if_neg h1b, if_neg h2, if_neg h2b,
            if_pos h3, if_pos h3b]
          exact ⟨ih.1.cons hab, ih.2.1, ih.2.2⟩
        · have h3b : ¬fwdConflict st o2 b = true := fun hc => h3 (hcf.1 ▸ hc)
          by_cases h4 : revConflict st o1 a
          · have h4b : revConflict st o2 b = true := hcf.2 ▸ h4
            simp only [placeInState, if_neg h1, if_neg h1b, if_neg h2, if_neg h2b,
              if_neg h3, if_neg h3b, if_pos h4, if_pos h4b]
            exact ⟨ih.1.cons hab, ih.2.1, ih.2.2⟩
          · have h4b : ¬revConflict st o2 b = true := fun hc => h4 (hcf.2 ▸ hc)
            simp only [placeInState, if_neg h1, if_neg h1b, if_neg h2, if_neg h2b,
              if_neg h3, if_neg h3b, if_neg h4, if_neg h4b]
            refine ⟨List.Forall₂.cons (hab.set_state st) htail, ?_, by rw [hname]⟩
            exact List.rel_append ho
              (List.Forall₂.cons ⟨rfl, hab.set_state st⟩ List.Forall₂.nil)

theorem relocateAux_rel (states : List String) :
    ∀ (pl : List String) {as bs : List FictionalAnimal}
      {o1 o2 : List (String × FictionalAnimal)},
      List.Forall₂ SameCore as bs → OccRel o1 o2 →
      List.Forall₂ SameCore (relocateAux states as o1 pl).1 (relocateAux states bs o2 pl).1 ∧
      OccRel (relocateAux states as o1 pl).2.1 (relocateAux states bs o2 pl).2.1 ∧
      (relocateAux states as o1 pl).2.2 = (relocateAux states bs o2 pl).2.2 := by
  induction states with
  | nil => intro pl as bs o1 o2 ha ho; exact ⟨ha, ho, rfl⟩
  | cons st states ih =>
    intro pl as bs o1 o2 ha ho
    have hstep := placeInState_rel st pl ha ho
    simp only [relocateAux]
    rw [← hstep.2.2]
    exact ih _ hstep.1 hstep.2.1

theorem forall₂_same_state {l1 l2 : List FictionalAnimal}
    (h : List.Forall₂ SameCore l1 l2) :
    l1.map (fun a => a.state) = l2.map fun a => a.state := by
  induction h with
  | nil => rfl
  | cons hab _ ih =>
    simp only [List.map_cons, ih, hab.2.2]

/-- Claim C8: the habitat field never influences placement — runs on two
animal lists that agree pointwise on name, threat and state produce
outputs that again agree on name, threat and state; in particular every
corresponding animal receives the same slot or sentinel. -/
theorem claim_C8_habitat_irrelevant (as bs : List FictionalAnimal)
    (h : List.Forall₂ SameCore as bs) :
    List.Forall₂ SameCore (relocate_animals as).1 (relocate_animals bs).1 ∧
    (relocate_animals as).1.map (fun a => a.state) =
      (relocate_animals bs).1.map fun a => a.state := by
  have hrel := relocateAux_rel VALID_STATES [] h
    (List.Forall₂.nil : OccRel [] [])
  exact ⟨hrel.1, forall₂_same_state hrel.1⟩

theorem claim_C8_witness :
    List.Forall₂ SameCore (relocate_animals [koala, dingo]).1
      (relocate_animals [koalaWoods, dingo]).1 ∧
    (relocate_animals [koala, dingo]).1.map (fun a => a.state) =
      (relocate_animals [koalaWoods, dingo]).1.map fun a => a.state :=
  claim_C8_habitat_irrelevant [koala, dingo] [koalaWoods, dingo]
    (List.Forall₂.cons ⟨rfl, rfl, rfl⟩ (List.Forall₂.cons ⟨rfl, rfl, rfl⟩ List.Forall₂.nil))

theorem countP_le_one_of_nodup_map {α β : Type} [BEq β] [LawfulBEq β] (f : α → β)
    {l : List α} (h : (l.map f).Nodup) (n : β) :
    (l.countP fun x => f x == n) ≤ 1 := by
  induction l with
  | nil => simp
  | cons a rest ih =>
    have h' := List.nodup_cons.mp (show (f a :: rest.map f).Nodup from h)
    rw [List.countP_cons]
    cases hfa : (f a == n) with
    | false =>
      simp only [hfa, Bool.false_eq_true, if_false, Nat.add_zero]
      exact ih h'.2
    | true =>
      have hfa' : f a = n := eq_of_beq hfa
      subst hfa'
      have h0 : (rest.countP fun x => f x == f a) = 0 := by
        rw [List.countP_eq_zero]
        intro x hx hcontra
        exact h'.1 ((eq_of_beq hcontra) ▸ List.mem_map_of_mem f hx)
      rw [h0]
      simp

/-- Claim C10: placement is tracked by name — the placed-animal set is
exactly the (duplicate-free) list of occupants' names, and in a run on
fresh animals at most one animal of any given name leaves the sentinel
state. -/
theorem claim_C10_name_tracking (as : List FictionalAnimal)
    (h : ∀ a ∈ as, a.state = "ACT") :
    ((relocate_animals as).2.1.map fun p => p.2.name).Nodup ∧
    (relocate_animals as).2.2 = ((relocate_animals as).2.1.map fun p => p.2.name) ∧
    ∀ n : String,
      ((relocate_animals as).1.countP fun a => a.name == n && !(a.state == "ACT")) ≤ 1 := by
  refine ⟨(relocate_inv0 as).names_nodup, (relocate_inv0 as).pl_eq, ?_⟩
  intro n
  have h1 : ((relocate_animals as).1.countP fun a => a.name == n && !(a.state == "ACT"))
      = (((relocate_animals as).1.filter fun a => !(a.state == "ACT")).countP
          fun a => a.name == n) := by
    rw [List.countP_filter]
  rw [h1, (relocate_invF as h).changed_perm.countP_eq]
  rw [List.countP_map]
  exact countP_le_one_of_nodup_map (fun p : String × FictionalAnimal => p.2.name)
    (relocate_inv0 as).names_nodup n

theorem claim_C10_witness :
    ((relocate_animals [koala, koalaRival]).2.1.map fun p => p.2.name).Nodup ∧
    (relocate_animals [koala, koalaRival]).2.2 =
      ((relocate_animals [koala, koalaRival]).2.1.map fun p => p.2.name) ∧
    ((relocate_animals [koala, koalaRival]).1.countP
      fun a => a.name == "Koala" && !(a.state == "ACT")) ≤ 1 :=
  ⟨(claim_C10_name_tracking [koala, koalaRival] (by decide)).1,
   (claim_C10_name_tracking [koala, koalaRival] (by decide)).2.1,
   (claim_C10_name_tracking [koala, koalaRival] (by decide)).2.2 "Koala"⟩

/-- Claim C9: since the stored adjacency table is symmetric, the final
assignment is conflict-free in both directions: for any two distinct
occupied entries whose slots are adjacent in either stored direction,
neither occupant's threat equals the other occupant's name. -/
theorem claim_C9_final_conflict_free (as : List FictionalAnimal)
    (i j : Nat) (si sj : String) (ai aj : FictionalAnimal) (hne : i ≠ j)
    (hi : (relocate_animals as).2.1.get? i = some (si, ai))
    (hj : (relocate_animals as).2.1.get? j = some (sj, aj))
    (hadj : si ∈ adjacentOf sj ∨ sj ∈ adjacentOf si) :
    ai.threat ≠ aj.name ∧ aj.threat ≠ ai.name := by
  have h0 := relocate_inv0 as
  have hsiv : si ∈ VALID_STATES := h0.keys_valid (si, ai) (List.get?_mem hi)
  have hsjv : sj ∈ VALID_STATES := h0.keys_valid (sj, aj) (List.get?_mem hj)
  rcases Nat.lt_or_gt_of_ne hne with hij | hji
  · have hadj' : si ∈ adjacentOf sj := by
      rcases hadj with ha | ha
      · exact ha
      · exact adjacent_symm_valid si hsiv sj ha
    have hdf := h0.decision_free i j si ai sj aj hij hi hj hadj'
    exact ⟨hdf.2, fun hcon => hdf.1 hcon.symm⟩
  · have hadj' : sj ∈ adjacentOf si := by
      rcases hadj with ha | ha
      · exact adjacent_symm_valid sj hsjv si ha
      · exact ha
    have hdf := h0.decision_free j i sj aj si ai hji hj hi hadj'
    exact ⟨fun hcon => hdf.1 hcon.symm, hdf.2⟩

theorem claim_C9_witness :
    (1 : Nat) ≠ 0 ∧
    (relocate_animals [wombat, emu]).2.1.get? 1 =
      some ("QLD", { emu with state := "QLD" }) ∧
    (relocate_animals [wombat, emu]).2.1.get? 0 =
      some ("NSW", { wombat with state := "NSW" }) ∧
    ("QLD" ∈ adjacentOf "NSW" ∨ "NSW" ∈ adjacentOf "QLD") ∧
    (({ emu with state := "QLD" } : FictionalAnimal).threat ≠
        ({ wombat with state := "NSW" } : FictionalAnimal).name ∧
      ({ wombat with state := "NSW" } : FictionalAnimal).threat ≠
        ({ emu with state := "QLD" } : FictionalAnimal).name) :=
  ⟨by decide, by decide, by decide, by decide,
    claim_C9_final_conflict_free [wombat, emu] 1 0 "QLD" "NSW"
      { emu with state := "QLD" } { wombat with state := "NSW" }
      (by decide) (by decide) (by decide) (by decide)⟩
